import Mathlib

/-!
Verification development for a file-over-byte-stream transfer system.

The system has two components sharing one wire format:
- a packetizer source block (`data_epy_block_0.py`), modelled in namespace `Tx`:
  it emits fixed-size packets (a metadata header packet, then file-data packets,
  optionally repeating), tagging each packet with its length;
- a reassembler sink block (`mpsk_stage6_epy_block_0.py`), modelled in namespace
  `Rx`: it scans an accumulating receive buffer for the magic marker `FILE`,
  validates a candidate header, then streams exactly `file_size` payload bytes
  to a `.part` file which is renamed to the final name on completion.

Bytes are modelled as natural numbers (values below 256 in real streams);
byte buffers are `List Nat`.  The filesystem visible to the reassembler is
modelled as an association list from paths (byte lists relative to the output
directory) to file contents.  Python `int` arithmetic on sizes is modelled by
`Nat` (all the quantities involved stay non-negative in the source).
-/

/-- Byte at index `i` of buffer `l` (0 when out of range; all uses in the
translated code are guarded by explicit length checks, as in the source). -/
def byteAt (l : List Nat) (i : Nat) : Nat := l.getD i 0

/-- Python slice `l[a:b]` for `0 ≤ a ≤ b` on byte buffers. -/
def sliceOf (l : List Nat) (a b : Nat) : List Nat := (l.drop a).take (b - a)

/-- The 4-byte magic marker `b"FILE"`. -/
def magicBytes : List Nat := [70, 73, 76, 69]

/-- Little-endian encoding of `n` on `k` bytes: `struct.pack` for `<H` (k = 2)
and `<Q` (k = 8). -/
def leBytes : Nat → Nat → List Nat
  | 0, _ => []
  | k + 1, n => n % 256 :: leBytes k (n / 256)

/-- Little-endian read of `k` bytes at offset `i`: `struct.unpack` for `<H`
(k = 2) and `<Q` (k = 8). -/
def readLE : Nat → List Nat → Nat → Nat
  | 0, _, _ => 0
  | k + 1, l, i => byteAt l i + 256 * readLE k l (i + 1)

namespace Tx

/-- Producer phase: `self._phase ∈ {"meta", "file", "zeros"}`. -/
inductive Phase
  | meta
  | file
  | zeros
deriving DecidableEq

/-- The source file as seen through the two fallible OS calls the block makes:
`size` is the result of `_get_size` (which maps any `os.path.getsize` failure
to 0), and `data` is the result of `_open_file` (`none` when `open` raised, in
which case `self._fh is None`). -/
structure Env where
  size : Nat
  data : Option (List Nat)
deriving DecidableEq

/-- Construction parameters of the source block: `name_b` is
`os.path.basename(filepath).encode("utf-8", errors="ignore")`, `meta_len` is
the packet size (the block uses one number for both), `rep` is `repeat`. -/
structure Cfg where
  name_b : List Nat
  meta_len : Nat
  rep : Bool
deriving DecidableEq

/-- Mutable state of the source block: the precomputed header `self._meta`,
the open file handle `self._fh` (remaining unread bytes), `self._phase`, and
`self._file_bytes_left`. -/
structure St where
  meta : List Nat
  fh : Option (List Nat)
  phase : Phase
  file_bytes_left : Nat
deriving DecidableEq

/-- Model of `blk._build_meta`: magic, version 1, `meta_len` as LE16, `name_len` as one
byte, file size as LE64, then the (≤ 255 byte) name, zero-padded or truncated
to exactly `meta_len` bytes. -/
def build_meta (name_b : List Nat) (meta_len fsize : Nat) : List Nat :=
  let nb := name_b.take 255
  let header := magicBytes ++ [1] ++ leBytes 2 meta_len ++ [nb.length] ++ leBytes 8 fsize ++ nb
  if header.length < meta_len then header ++ List.replicate (meta_len - header.length) 0
  else header.take meta_len

/-- Model of `blk.__init__` (after the `meta_len >= 16` check): build the header, open
the file, start in phase `meta` with `file_bytes_left = _get_size()`. -/
def init_state (env : Env) (cfg : Cfg) : St :=
  { meta := build_meta cfg.name_b cfg.meta_len env.size
    fh := env.data
    phase := Phase.meta
    file_bytes_left := env.size }

/-- One iteration of the packet loop in `blk.general_work`: emits one packet of
`meta_len` bytes and updates the state.  In phase `meta` the stored header is
emitted, the size is re-stat'ed and the file reopened; otherwise up to
`meta_len` bytes are read (bounded by `file_bytes_left`), zero-padded, and on
exhaustion the block either rebuilds the header (`repeat`) or moves to `zeros`;
a packet whose final phase is `zeros` is overwritten with zeros. -/
def emit_packet (env : Env) (cfg : Cfg) (s : St) : List Nat × St :=
  let pkt := cfg.meta_len
  if s.phase = Phase.meta then
    (s.meta, { s with fh := env.data, phase := Phase.file, file_bytes_left := env.size })
  else
    let toRead := min pkt s.file_bytes_left
    let buf : List Nat :=
      match s.fh with
      | some d => if 0 < s.file_bytes_left then d.take toRead else []
      | none => []
    let fh' : Option (List Nat) :=
      match s.fh with
      | some d => if 0 < s.file_bytes_left then some (d.drop toRead) else some d
      | none => none
    let left' := s.file_bytes_left - buf.length
    let outBytes := buf ++ List.replicate (pkt - buf.length) 0
    let phase' := if left' = 0 then (if cfg.rep then Phase.meta else Phase.zeros) else s.phase
    let meta' := if left' = 0 ∧ cfg.rep then build_meta cfg.name_b cfg.meta_len env.size else s.meta
    let out := if phase' = Phase.zeros then List.replicate pkt 0 else outBytes
    (out, { meta := meta', fh := fh', phase := phase', file_bytes_left := left' })

/-- Runs `k` consecutive iterations of the packet loop, concatenating the emitted
packets. -/
def emit_packets (env : Env) (cfg : Cfg) : Nat → St → List Nat × St
  | 0, s => ([], s)
  | k + 1, s =>
    let p := emit_packet env cfg s
    let rest := emit_packets env cfg k p.2
    (p.1 ++ rest.1, rest.2)

/-- Result of one `general_work` call on the producer: emitted bytes, the
`(offset, value)` length tags attached via `add_item_tag`, and the new state. -/
structure WorkOut where
  out : List Nat
  tags : List (Nat × Nat)
  st : St
deriving DecidableEq

/-- Model of `blk.general_work` on the producer: with `nout` output items requested and
`nwritten = self.nitems_written(0)`, emit `nout / meta_len` full packets (zero
packets, reported as success, if the request is smaller than one packet),
tagging each packet start with the packet length. -/
def general_work (env : Env) (cfg : Cfg) (nout nwritten : Nat) (s : St) : WorkOut :=
  let pkt := cfg.meta_len
  let n_pkts := nout / pkt
  if n_pkts = 0 then ⟨[], [], s⟩
  else
    let es := emit_packets env cfg n_pkts s
    ⟨es.1, (List.range n_pkts).map (fun i => (nwritten + i * pkt, pkt)), es.2⟩

end Tx

namespace Rx

/-- Receiver state tag: `self.state ∈ {"SCAN", "RECV", "DONE"}`. -/
inductive RState
  | SCAN
  | RECV
  | DONE
deriving DecidableEq

/-- Construction parameters of the reassembler that affect its behaviour:
`overwrite` and `max_buffer`.  `out_dir` is modelled by taking all paths
relative to the output directory, and `debug` only controls printing. -/
structure Cfg where
  overwrite : Bool
  max_buffer : Nat
deriving DecidableEq

/-- The default construction parameters (`overwrite=True`,
`max_buffer=4*1024*1024`). -/
def defaultCfg : Cfg := ⟨true, 4 * 1024 * 1024⟩

/-- The output-directory filesystem, as an association list from paths
(relative to `out_dir`) to file contents.  Entries are looked up by exact
path; `fsSet` replaces, `fsRemove` deletes. -/
def fsLookup : List (List Nat × List Nat) → List Nat → Option (List Nat)
  | [], _ => none
  | e :: rest, q => if e.1 = q then some e.2 else fsLookup rest q

/-- Remove the entry at path `q` (no-op when absent, like the guarded
`os.remove`). -/
def fsRemove (fs : List (List Nat × List Nat)) (q : List Nat) : List (List Nat × List Nat) :=
  fs.filter (fun e => ¬(e.1 = q))

/-- Create or replace the file at path `q` with content `c`. -/
def fsSet (fs : List (List Nat × List Nat)) (q : List Nat) (c : List Nat) :
    List (List Nat × List Nat) :=
  (q, c) :: fsRemove fs q

/-- Append `chunk` to the file at `q` (`self.fh.write(chunk)` on the open
handle). -/
def fsAppend (fs : List (List Nat × List Nat)) (q : List Nat) (chunk : List Nat) :
    List (List Nat × List Nat) :=
  fsSet fs q ((fsLookup fs q).getD [] ++ chunk)

/-- UTF-8 continuation byte test. -/
def isCont (b : Nat) : Bool := 128 ≤ b && b ≤ 191

/-- Valid first-continuation ranges for a 3-byte lead. -/
def cont1ok3 (b c1 : Nat) : Bool :=
  if b = 224 then 160 ≤ c1 && c1 ≤ 191
  else if b = 237 then 128 ≤ c1 && c1 ≤ 159
  else isCont c1

/-- Valid first-continuation ranges for a 4-byte lead. -/
def cont1ok4 (b c1 : Nat) : Bool :=
  if b = 240 then 144 ≤ c1 && c1 ≤ 191
  else if b = 244 then 128 ≤ c1 && c1 ≤ 143
  else isCont c1

/-- Model of `bytes.decode("utf-8", errors="ignore")`: decode UTF-8, dropping invalid
byte sequences instead of raising.  Well-formed sequences decode exactly; on
an invalid byte the already-consumed valid lead/continuation bytes of the
current sequence are dropped and decoding resumes at the offending byte (the
behaviour of CPython's ignore handler on its maximal-subpart boundaries is
matched on well-formed and ASCII input, which is all the development uses). -/
def decode_utf8_ignore : List Nat → List Nat
  | [] => []
  | b :: rest =>
    if b < 128 then b :: decode_utf8_ignore rest
    else if 194 ≤ b && b ≤ 223 then
      match rest with
      | [] => []
      | c1 :: r1 =>
        if isCont c1 then ((b - 192) * 64 + (c1 - 128)) :: decode_utf8_ignore r1
        else decode_utf8_ignore (c1 :: r1)
    else if 224 ≤ b && b ≤ 239 then
      match rest with
      | [] => []
      | c1 :: r1 =>
        if cont1ok3 b c1 then
          match r1 with
          | [] => []
          | c2 :: r2 =>
            if isCont c2 then
              ((b - 224) * 4096 + (c1 - 128) * 64 + (c2 - 128)) :: decode_utf8_ignore r2
            else decode_utf8_ignore (c2 :: r2)
        else decode_utf8_ignore (c1 :: r1)
    else if 240 ≤ b && b ≤ 244 then
      match rest with
      | [] => []
      | c1 :: r1 =>
        if cont1ok4 b c1 then
          match r1 with
          | [] => []
          | c2 :: r2 =>
            if isCont c2 then
              match r2 with
              | [] => []
              | c3 :: r3 =>
                if isCont c3 then
                  ((b - 240) * 262144 + (c1 - 128) * 4096 + (c2 - 128) * 64 + (c3 - 128)) ::
                    decode_utf8_ignore r3
                else decode_utf8_ignore (c3 :: r3)
            else decode_utf8_ignore (c2 :: r2)
        else decode_utf8_ignore (c1 :: r1)
    else decode_utf8_ignore rest

/-- Python `str.strip("\x00")`: drop NUL characters from both ends. -/
def strip_nul (l : List Nat) : List Nat :=
  ((l.dropWhile (fun b => b = 0)).reverse.dropWhile (fun b => b = 0)).reverse

/-- The fallback output name `"recv.bin"`. -/
def recv_bin : List Nat := [114, 101, 99, 118, 46, 98, 105, 110]

/-- The name a successfully validated header yields: decode the raw name bytes
as UTF-8 (ignoring errors), strip NULs, fall back to `"recv.bin"` when empty. -/
def decoded_name (raw : List Nat) : List Nat :=
  let nm := strip_nul (decode_utf8_ignore raw)
  if nm = [] then recv_bin else nm

/-- The fields `_try_parse_meta_at` assigns on success
(`self.meta_len`, `self.file_size`, `self.file_name`). -/
structure ParsedMeta where
  meta_len : Nat
  file_size : Nat
  file_name : List Nat
deriving DecidableEq

/-- Model of `blk._try_parse_meta_at`, with the successful assignments returned instead
of stored: requires 16 bytes from `idx`, the magic, version 1,
`16 ≤ meta_len ≤ 4096`, `name_len ≤ 255`, `0 < file_size ≤ 1 GiB`, `meta_len`
bytes available from `idx`, and the name field fitting inside `meta_len`;
every failed check returns `none` (`False` in the source). -/
def try_parse_meta_at (buf : List Nat) (idx : Nat) : Option ParsedMeta :=
  if buf.length < idx + 16 then none
  else if ¬(sliceOf buf idx (idx + 4) = magicBytes) then none
  else
    let ver := byteAt buf (idx + 4)
    let ml := readLE 2 buf (idx + 5)
    let nl := byteAt buf (idx + 7)
    let fsize := readLE 8 buf (idx + 8)
    if ¬(ver = 1) then none
    else if ml < 16 ∨ 4096 < ml then none
    else if 255 < nl then none
    else if fsize = 0 ∨ 1024 ^ 3 < fsize then none
    else if buf.length < idx + ml then none
    else if idx + ml < idx + 16 + nl then none
    else some ⟨ml, fsize, decoded_name (sliceOf buf (idx + 16) (idx + 16 + nl))⟩

/-- Mutable state of the reassembler block, together with the modelled output
filesystem `fs`.  `fh` records whether the `.part` handle is open. -/
structure St where
  state : RState
  buf : List Nat
  meta_len : Option Nat
  file_size : Option Nat
  file_name : Option (List Nat)
  fh : Bool
  part_path : Option (List Nat)
  final_path : Option (List Nat)
  written : Nat
  done : Bool
  fs : List (List Nat × List Nat)
deriving DecidableEq

/-- Model of `blk.__init__`: fresh session in `SCAN` with an empty buffer and (in the
model) an empty output directory. -/
def init : St :=
  ⟨RState.SCAN, [], none, none, none, false, none, none, 0, false, []⟩

/-- Model of `blk._try_parse_meta_at` as the state transformer it is in the source: the
session fields are assigned only when every check passed, and the method
returns `True`/`False`. -/
def try_parse_meta_at_upd (s : St) (idx : Nat) : Bool × St :=
  match try_parse_meta_at s.buf idx with
  | none => (false, s)
  | some m =>
    (true, { s with meta_len := some m.meta_len, file_size := some m.file_size,
                    file_name := some m.file_name })

/-- The scan loop of `general_work` in state `SCAN`, with an explicit
structural bound on the number of candidate positions still to examine:
repeatedly find the next occurrence of the magic from the current search
position and try to validate a header there; the first fully validating
candidate wins, and a failed candidate moves the search one byte past its
magic (`start = idx + 1`).  The source's `bytes.find` + `while` loop is
flattened into one recursion that steps over non-magic positions. -/
def scanFindAux (buf : List Nat) : Nat → Nat → Option (Nat × ParsedMeta)
  | 0, _ => none
  | fuel + 1, start =>
    if start + 4 ≤ buf.length then
      if sliceOf buf start (start + 4) = magicBytes then
        match try_parse_meta_at buf start with
        | some m => some (start, m)
        | none => scanFindAux buf fuel (start + 1)
      else scanFindAux buf fuel (start + 1)
    else none

/-- The scan loop from position `start`: the search terminates once the
position passes `buf.length - 4`, so `buf.length + 1 - start` bounds the
remaining positions. -/
def scanFind (buf : List Nat) (start : Nat) : Option (Nat × ParsedMeta) :=
  scanFindAux buf (buf.length + 1 - start) start

/-- Separator test for `os.path.basename` (forward and backward slash, the
block is used on Windows paths). -/
def isSep (b : Nat) : Bool := b = 47 || b = 92

/-- Model of `os.path.basename`: the suffix after the last path separator. -/
def basename (l : List Nat) : List Nat :=
  l.foldl (fun acc b => if isSep b then [] else acc ++ [b]) []

/-- Model of `os.path.basename(name) if name else "recv.bin"` in `_open_out`. -/
def safe_name (name : List Nat) : List Nat :=
  if ¬(name = []) then basename name else recv_bin

/-- The `".part"` suffix. -/
def part_suffix : List Nat := [46, 112, 97, 114, 116]

/-- Model of `os.path.splitext`: split at the last dot, leading dots not starting an
extension (the common cases; this only feeds the collision-avoidance rename,
which no verified scenario reaches). -/
def splitext (l : List Nat) : List Nat × List Nat :=
  let after := (l.reverse.takeWhile (fun b => ¬(b = 46))).length
  if after = l.length then (l, [])
  else
    let p := l.length - after - 1
    if p < (l.takeWhile (fun b => b = 46)).length then (l, [])
    else (l.take p, l.drop p)

/-- Decimal ASCII digits of `n` (for the `f"{base}_{k}{ext}"` rename). -/
def natDigits (n : Nat) : List Nat :=
  if n < 10 then [48 + n]
  else natDigits (n / 10) ++ [48 + n % 10]
termination_by n
decreasing_by exact Nat.div_lt_self (by omega) (by omega)

/-- The candidate collision-free name `f"{base}_{k}{ext}"`. -/
def name_k (base ext : List Nat) (k : Nat) : List Nat :=
  base ++ [95] ++ natDigits k ++ ext

/-- The `while os.path.exists(...)` search for a free numeric suffix, with
enough fuel to clear any finite modelled directory. -/
def first_free_k (fs : List (List Nat × List Nat)) (base ext : List Nat) :
    Nat → Nat → Nat
  | 0, k => k
  | fuel + 1, k =>
    if (fsLookup fs (name_k base ext k)).isSome ||
        (fsLookup fs (name_k base ext k ++ part_suffix)).isSome then
      first_free_k fs base ext fuel (k + 1)
    else k

/-- Model of `blk._open_out`: compute the final and `.part` paths (with numeric-suffix
collision avoidance when `overwrite` is off and the target exists), close any
previous handle, open the `.part` file for writing (truncating), and reset
`written`. -/
def open_out (cfg : Cfg) (s : St) (name : List Nat) (size : Nat) : St :=
  let safe := safe_name name
  let fp :=
    if cfg.overwrite = false ∧ (fsLookup s.fs safe).isSome then
      let be := splitext safe
      name_k be.1 be.2 (first_free_k s.fs be.1 be.2 (s.fs.length + 1) 1)
    else safe
  let pp := fp ++ part_suffix
  { s with final_path := some fp, part_path := some pp,
           fh := true, fs := fsSet s.fs pp [], written := 0 }

/-- Model of `blk._finish`: close the handle, remove any file at the final path, and
rename (`os.replace`) the `.part` file onto the final path. -/
def finish (s : St) : St :=
  let fp := s.final_path.getD []
  let pp := s.part_path.getD []
  let fs1 := fsRemove s.fs fp
  let pc := (fsLookup fs1 pp).getD []
  { s with fh := false, fs := fsSet (fsRemove fs1 pp) fp pc }

/-- The unconditional prologue of `general_work` (after the `done` early-out):
append the arriving bytes to the receive buffer and, when it exceeds
`max_buffer`, keep only its last `1024*1024` bytes. -/
def append_trunc (cfg : Cfg) (inp : List Nat) (s : St) : St :=
  let b := s.buf ++ inp
  if cfg.max_buffer < b.length then { s with buf := b.drop (b.length - 1024 * 1024) }
  else { s with buf := b }

/-- The `SCAN` block of `general_work`: run the scan loop; on a validated
candidate at `idx`, discard the bytes before it and the `meta_len` header
bytes, record the parsed fields, open the output sink and move to `RECV`. -/
def scan_step (cfg : Cfg) (s : St) : St :=
  match scanFind s.buf 0 with
  | none => s
  | some (idx, m) =>
    let s1 := { s with meta_len := some m.meta_len, file_size := some m.file_size,
                       file_name := some m.file_name }
    let s2 := { s1 with buf := (s1.buf.drop idx).drop m.meta_len }
    let s3 := open_out cfg s2 m.file_name m.file_size
    { s3 with state := RState.RECV }

/-- The write half of the `RECV` block: move `min(remaining, len(buf))` bytes
from the receive buffer to the `.part` file. -/
def recv_write (s : St) : St :=
  let fsz := s.file_size.getD 0
  let remain := fsz - s.written
  if 0 < remain ∧ 0 < s.buf.length then
    let take := min remain s.buf.length
    let chunk := s.buf.take take
    { s with fs := fsAppend s.fs (s.part_path.getD []) chunk,
             written := s.written + take, buf := s.buf.drop take }
  else s

/-- The `RECV` block of `general_work`: write buffered bytes and, once
`written` reaches `file_size`, finish (rename `.part` to final) and become
`DONE`. -/
def recv_step (s : St) : St :=
  let s1 := recv_write s
  if s1.file_size.getD 0 ≤ s1.written then
    { finish s1 with done := true, state := RState.DONE }
  else s1

/-- Model of `blk.general_work` on the consumer: drop everything once done; otherwise
buffer the input (bounded), scan while in `SCAN`, then (also in the same call,
when the scan opened a sink) drain into the output file. -/
def general_work (cfg : Cfg) (inp : List Nat) (s : St) : St :=
  if s.done then s
  else
    let s1 := append_trunc cfg inp s
    let s2 := if s1.state = RState.SCAN then scan_step cfg s1 else s1
    if s2.state = RState.RECV ∧ s2.fh = true then recv_step s2 else s2

/-- A whole session: fold `general_work` over a list of input deliveries
starting from a fresh block. -/
def run (cfg : Cfg) (ds : List (List Nat)) : St :=
  ds.foldl (fun s d => general_work cfg d s) init

end Rx

/-- Stated from the specification's words (for comparison with the code's
`Rx.try_parse_meta_at`): the seven validation conditions the spec lists for a
header candidate at `idx` — (1) 16 bytes available, (2) magic match,
(3) version 1, (4) `16 ≤ meta_len ≤ 4096`, (5) `name_len ≤ 255`,
(6) `0 < file_size ≤ 1 GiB`, (7) `meta_len` bytes available. -/
def spec_parse_conditions (buf : List Nat) (idx : Nat) : Prop :=
  idx + 16 ≤ buf.length ∧
  sliceOf buf idx (idx + 4) = magicBytes ∧
  byteAt buf (idx + 4) = 1 ∧
  (16 ≤ readLE 2 buf (idx + 5) ∧ readLE 2 buf (idx + 5) ≤ 4096) ∧
  byteAt buf (idx + 7) ≤ 255 ∧
  (0 < readLE 8 buf (idx + 8) ∧ readLE 8 buf (idx + 8) ≤ 1024 ^ 3) ∧
  idx + readLE 2 buf (idx + 5) ≤ buf.length

instance (buf : List Nat) (idx : Nat) : Decidable (spec_parse_conditions buf idx) := by
  unfold spec_parse_conditions; infer_instance

/-- The field sanity checks alone — conditions (1)–(6) of
`spec_parse_conditions`, everything except data availability for the full
header.  A candidate that passes these but fails (7) is the spec's
"need more data" case. -/
def sanity_pass (buf : List Nat) (idx : Nat) : Prop :=
  idx + 16 ≤ buf.length ∧
  sliceOf buf idx (idx + 4) = magicBytes ∧
  byteAt buf (idx + 4) = 1 ∧
  (16 ≤ readLE 2 buf (idx + 5) ∧ readLE 2 buf (idx + 5) ≤ 4096) ∧
  byteAt buf (idx + 7) ≤ 255 ∧
  (0 < readLE 8 buf (idx + 8) ∧ readLE 8 buf (idx + 8) ≤ 1024 ^ 3)

instance (buf : List Nat) (idx : Nat) : Decidable (sanity_pass buf idx) := by
  unfold sanity_pass; infer_instance

/-- The reachable-state invariant of a reassembler session: in `SCAN` nothing
has been opened or written; in `RECV` the `.part` file is open and holds
exactly the `written < file_size` bytes received so far, while nothing sits at
the final path; in `DONE` the finished file of exactly `file_size` bytes sits
at the final path and the `.part` file is gone. -/
def RxInv (s : Rx.St) : Prop :=
  (s.state = Rx.RState.SCAN →
    s.done = false ∧ s.fh = false ∧ s.final_path = none ∧ s.part_path = none ∧
      s.fs = [] ∧ s.written = 0) ∧
  (s.state = Rx.RState.RECV →
    s.done = false ∧ s.fh = true ∧
      ∃ fp fsz c, s.final_path = some fp ∧ s.part_path = some (fp ++ Rx.part_suffix) ∧
        s.file_size = some fsz ∧ s.written < fsz ∧
        s.fs = [(fp ++ Rx.part_suffix, c)] ∧ c.length = s.written) ∧
  (s.state = Rx.RState.DONE →
    s.done = true ∧
      ∃ fp fsz c, s.final_path = some fp ∧ s.file_size = some fsz ∧ s.written = fsz ∧
        s.fs = [(fp, c)] ∧ c.length = fsz)

set_option maxRecDepth 40000 in
/-- Claim C2: with `packet_size = 512` and a 10-byte source file `a.txt`
containing `0123456789`, the packetizer's first packet is the exact
header `FILE ‖ 01 ‖ 512(LE16) ‖ 05 ‖ 10(LE64) ‖ "a.txt" ‖ 0-padding` of 512
bytes, its second packet is the 10 content bytes followed by 502 zeros, and
feeding exactly these two packets to a fresh reassembler produces the file
`a.txt` with exactly those 10 bytes and a session in state `DONE`. -/
theorem c2_concrete_scenario :
    (let env : Tx.Env := ⟨10, some [48, 49, 50, 51, 52, 53, 54, 55, 56, 57]⟩
     let tcfg : Tx.Cfg := ⟨[97, 46, 116, 120, 116], 512, true⟩
     let stream := (Tx.general_work env tcfg 1024 0 (Tx.init_state env tcfg)).out
     let s := Rx.general_work Rx.defaultCfg stream Rx.init
     stream =
       ([70, 73, 76, 69] ++ [1] ++ [0, 2] ++ [5] ++ [10, 0, 0, 0, 0, 0, 0, 0] ++
           [97, 46, 116, 120, 116] ++ List.replicate 491 0) ++
         ([48, 49, 50, 51, 52, 53, 54, 55, 56, 57] ++ List.replicate 502 0) ∧
     s.state = Rx.RState.DONE ∧ s.done = true ∧
     Rx.fsLookup s.fs [97, 46, 116, 120, 116] =
       some [48, 49, 50, 51, 52, 53, 54, 55, 56, 57]) := by
  decide

set_option maxRecDepth 40000 in
/-- Claim C1 counterexample: the round-trip fails at file size `S = 0`
(allowed by the claim's `0 ≤ S`).  With `packet_size = 32` and an empty file,
the emitted stream (one complete header-plus-payload run, the payload being
empty) leaves a fresh reassembler in `SCAN`, not `DONE`, and produces no file:
the receiver's own validation rejects every header whose declared
`file_size` is zero. -/
theorem c1_counterexample :
    (let env : Tx.Env := ⟨0, some []⟩
     let tcfg : Tx.Cfg := ⟨[97, 46, 116, 120, 116], 32, true⟩
     let stream := (Tx.general_work env tcfg 64 0 (Tx.init_state env tcfg)).out
     let s := Rx.general_work Rx.defaultCfg stream Rx.init
     ¬(s.state = Rx.RState.DONE) ∧ s.fs = []) := by
  decide

/-- Claim C3 counterexample: a 16-byte buffer that satisfies all seven listed
conditions (magic, version 1, `meta_len = 16`, `name_len = 5`,
`file_size = 1`, 16 = `meta_len` bytes available) but whose name field would
overflow `meta_len` (16 + 5 > 16).  The claim says such a header is still
accepted leniently; the code rejects it. -/
theorem c3_counterexample :
    spec_parse_conditions [70, 73, 76, 69, 1, 16, 0, 5, 1, 0, 0, 0, 0, 0, 0, 0] 0 ∧
    Rx.try_parse_meta_at [70, 73, 76, 69, 1, 16, 0, 5, 1, 0, 0, 0, 0, 0, 0, 0] 0 = none := by
  decide

set_option maxRecDepth 40000 in
/-- Claim C5 counterexample: a buffer whose first magic candidate (offset 0)
passes every field sanity check but declares `meta_len = 100` with only 34
bytes available — the spec's "need more data" case — followed at offset 16 by
a fully valid header (`meta_len = 16`, `file_size = 2`) and its 2 payload
bytes.  The claim says the scanner stops scanning for this round and waits;
the code instead advances past the candidate, validates the later header in
the same round, and even completes the transfer (`DONE`, `file_size = 2`). -/
theorem c5_counterexample :
    (let buf := [70, 73, 76, 69, 1, 100, 0, 0, 5, 0, 0, 0, 0, 0, 0, 0] ++
        [70, 73, 76, 69, 1, 16, 0, 0, 2, 0, 0, 0, 0, 0, 0, 0] ++ [9, 9]
     let s := Rx.general_work Rx.defaultCfg buf Rx.init
     sanity_pass buf 0 ∧ buf.length < 0 + readLE 2 buf 5 ∧
     s.state = Rx.RState.DONE ∧ s.file_size = some 2) := by
  decide

/-- Claim C8 counterexample: with `max_buffer = 16` configured, a single
delivery of 17 bytes containing no valid header (all zeros) leaves the scan
buffer at 17 bytes — above `max_buffer` — because the overflow truncation
keeps the last `1024*1024` bytes regardless of the configured cap, which does
nothing when the buffer is below 1 MiB. -/
theorem c8_counterexample :
    (Rx.run ⟨true, 16⟩ [List.replicate 17 0]).state = Rx.RState.SCAN ∧
    16 < (Rx.run ⟨true, 16⟩ [List.replicate 17 0]).buf.length := by
  decide

/-- Claim C9 counterexample: when opening the source file fails but the size
query succeeds with a nonzero size (`Env = ⟨1, none⟩`), the phase cycle does
not proceed as for a zero-length file: after two packets the failed-open
session is still in phase `file` (it never re-enters `meta`), while the
empty-file session (`Env = ⟨0, some []⟩`) is back in `meta`; the emitted
streams already differ in the first packet (the header declares size 1). -/
theorem c9_counterexample :
    (Tx.emit_packets ⟨1, none⟩ ⟨[], 16, true⟩ 2
        (Tx.init_state ⟨1, none⟩ ⟨[], 16, true⟩)).2.phase = Tx.Phase.file ∧
    (Tx.emit_packets ⟨0, some []⟩ ⟨[], 16, true⟩ 2
        (Tx.init_state ⟨0, some []⟩ ⟨[], 16, true⟩)).2.phase = Tx.Phase.meta ∧
    ¬((Tx.emit_packets ⟨1, none⟩ ⟨[], 16, true⟩ 3
          (Tx.init_state ⟨1, none⟩ ⟨[], 16, true⟩)).1 =
        (Tx.emit_packets ⟨0, some []⟩ ⟨[], 16, true⟩ 3
          (Tx.init_state ⟨0, some []⟩ ⟨[], 16, true⟩)).1) := by
  decide

/-- Claim C10: whenever header validation at a candidate offset fails — for
missing magic, a bad field value, or insufficient bytes — no session state is
modified: the state after the attempt (fields `meta_len`, `file_size`,
`file_name`, the receive buffer, and everything else) is exactly the state
before; the fields are assigned only when validation fully succeeds. -/
theorem c10_parse_failure_atomic (s : Rx.St) (idx : Nat)
    (h : (Rx.try_parse_meta_at_upd s idx).1 = false) :
    (Rx.try_parse_meta_at_upd s idx).2 = s := by
  cases hp : Rx.try_parse_meta_at s.buf idx with
  | none => simp [Rx.try_parse_meta_at_upd, hp]
  | some m => simp [Rx.try_parse_meta_at_upd, hp] at h

/-- Witness for C10 at a concrete failing buffer. -/
theorem c10_parse_failure_atomic_witness :
    (Rx.try_parse_meta_at_upd { Rx.init with buf := [1, 2, 3] } 0).1 = false ∧
    (Rx.try_parse_meta_at_upd { Rx.init with buf := [1, 2, 3] } 0).2 =
      { Rx.init with buf := [1, 2, 3] } :=
  ⟨by decide, c10_parse_failure_atomic { Rx.init with buf := [1, 2, 3] } 0 (by decide)⟩

/-- Length of the little-endian encoding. -/
theorem leBytes_length (k n : Nat) : (leBytes k n).length = k := by
  induction k generalizing n with
  | zero => rfl
  | succ k ih => simp [leBytes, ih]

/-- The two-byte encoding, unfolded. -/
theorem leBytes_two (n : Nat) : leBytes 2 n = [n % 256, n / 256 % 256] := rfl

/-- Indexing past the head of a cons cell. -/
theorem byteAt_cons_succ (a : Nat) (l : List Nat) (i : Nat) :
    byteAt (a :: l) (i + 1) = byteAt l i := by
  simp [byteAt]

/-- Reading a multi-byte field past the head of a cons cell. -/
theorem readLE_cons_succ (k a : Nat) (l : List Nat) (i : Nat) :
    readLE k (a :: l) (i + 1) = readLE k l i := by
  induction k generalizing i with
  | zero => rfl
  | succ k ih => simp [readLE, byteAt_cons_succ, ih]

/-- Reading back a little-endian encoding recovers the value modulo `256^k`,
whatever follows it in the buffer. -/
theorem readLE_leBytes (k n : Nat) (tail : List Nat) :
    readLE k (leBytes k n ++ tail) 0 = n % 256 ^ k := by
  induction k generalizing n with
  | zero => simp [readLE, Nat.mod_one]
  | succ k ih =>
    have h1 : readLE (k + 1) (n % 256 :: (leBytes k (n / 256) ++ tail)) 0 =
        n % 256 + 256 * readLE k (leBytes k (n / 256) ++ tail) 0 := by
      simp [readLE, byteAt, readLE_cons_succ]
    have h2 : (256 : Nat) ^ (k + 1) = 256 * 256 ^ k := by ring
    simp only [leBytes, List.cons_append, h1, ih, h2]
    exact (Nat.mod_mul).symm

/-- Lemma: `_build_meta` always returns exactly `meta_len` bytes. -/
theorem build_meta_length (nb : List Nat) (ml f : Nat) :
    (Tx.build_meta nb ml f).length = ml := by
  unfold Tx.build_meta
  dsimp only
  set header := magicBytes ++ [1] ++ leBytes 2 ml ++ [(List.take 255 nb).length] ++
    leBytes 8 f ++ List.take 255 nb with hh
  split
  · rw [List.length_append, List.length_replicate]
    omega
  · rw [List.length_take]
    omega

/-- When the name fits (the only case the round-trip uses), `_build_meta` is
the header fields followed by zero padding. -/
theorem build_meta_eq (nb : List Nat) (ml f : Nat) (h1 : nb.length ≤ 255)
    (h2 : 16 + nb.length ≤ ml) :
    Tx.build_meta nb ml f =
      magicBytes ++ [1] ++ leBytes 2 ml ++ [nb.length] ++ leBytes 8 f ++ nb ++
        List.replicate (ml - (16 + nb.length)) 0 := by
  have hnb : nb.take 255 = nb := List.take_of_length_le h1
  have hlen : (magicBytes ++ [1] ++ leBytes 2 ml ++ [nb.length] ++ leBytes 8 f ++ nb).length =
      16 + nb.length := by
    simp [magicBytes, leBytes_length]
    omega
  unfold Tx.build_meta
  dsimp only
  rw [hnb]
  split
  · rw [hlen]
  · rename_i h
    rw [hlen] at h
    have hle : (magicBytes ++ [1] ++ leBytes 2 ml ++ [nb.length] ++ leBytes 8 f ++ nb).length ≤ ml := by
      rw [hlen]
      omega
    have hz : ml - (16 + nb.length) = 0 := by omega
    rw [List.take_of_length_le hle, hz]
    simp

/-- Reading a field entirely to the right of a prefix. -/
theorem readLE_append_left (k : Nat) (l r : List Nat) (i : Nat) :
    readLE k (l ++ r) (l.length + i) = readLE k r i := by
  induction l generalizing i with
  | nil => simp
  | cons a t ih =>
    have : (a :: t).length + i = (t.length + i) + 1 := by simp; omega
    rw [this, List.cons_append, readLE_cons_succ]
    exact ih i

/-- The receiver's header validation accepts every header the producer builds
with a fitting name and a plausible size, whatever follows it, and recovers
the produced `meta_len`, `file_size` and name. -/
theorem try_parse_build_meta (nb : List Nat) (pkt S : Nat) (tail : List Nat)
    (h1 : nb.length ≤ 255) (h2 : 16 + nb.length ≤ pkt) (h3 : pkt ≤ 4096)
    (h4 : 0 < S) (h5 : S ≤ 1024 ^ 3) :
    Rx.try_parse_meta_at (Tx.build_meta nb pkt S ++ tail) 0 =
      some ⟨pkt, S, Rx.decoded_name nb⟩ := by
  have hpow : (1024 : Nat) ^ 3 = 1073741824 := by norm_num
  have hB : Tx.build_meta nb pkt S ++ tail =
      [70, 73, 76, 69, 1, pkt % 256, pkt / 256 % 256, nb.length] ++
        (leBytes 8 S ++ (nb ++ (List.replicate (pkt - (16 + nb.length)) 0 ++ tail))) := by
    rw [build_meta_eq nb pkt S h1 h2]
    simp [magicBytes, leBytes_two, List.append_assoc]
  rw [hB]
  set R := List.replicate (pkt - (16 + nb.length)) 0 ++ tail with hR
  set B := [70, 73, 76, 69, 1, pkt % 256, pkt / 256 % 256, nb.length] ++
    (leBytes 8 S ++ (nb ++ R)) with hBdef
  have hlen : B.length = pkt + tail.length := by
    simp [hBdef, hR, leBytes_length, List.length_append, List.length_replicate]
    omega
  have hmg : sliceOf B 0 4 = magicBytes := rfl
  have hver : byteAt B 4 = 1 := rfl
  have hml : readLE 2 B 5 = pkt := by
    have : readLE 2 B 5 = pkt % 256 + 256 * (pkt / 256 % 256 + 256 * 0) := rfl
    rw [this]
    omega
  have hnl : byteAt B 7 = nb.length := rfl
  have hfs : readLE 8 B 8 = S := by
    have e1 : readLE 8 B 8 = readLE 8 (leBytes 8 S ++ (nb ++ R)) 0 :=
      readLE_append_left 8 [70, 73, 76, 69, 1, pkt % 256, pkt / 256 % 256, nb.length]
        (leBytes 8 S ++ (nb ++ R)) 0
    rw [e1, readLE_leBytes]
    exact Nat.mod_eq_of_lt (by omega)
  have hassoc : B = ([70, 73, 76, 69, 1, pkt % 256, pkt / 256 % 256, nb.length] ++ leBytes 8 S) ++
      (nb ++ R) := by
    simp [hBdef, List.append_assoc]
  have hl16 : ([70, 73, 76, 69, 1, pkt % 256, pkt / 256 % 256, nb.length] ++
      leBytes 8 S).length = 16 := by
    simp [leBytes_length]
  have hdrop : B.drop 16 = nb ++ R := by
    rw [hassoc, ← hl16]
    exact List.drop_left _ _
  have hslice : sliceOf B 16 (16 + nb.length) = nb := by
    unfold sliceOf
    rw [hdrop]
    have : 16 + nb.length - 16 = nb.length := by omega
    rw [this]
    exact List.take_left _ _
  unfold Rx.try_parse_meta_at
  rw [if_neg (by omega)]
  rw [if_neg (by simp [hmg])]
  dsimp only
  rw [if_neg (by simp only [Nat.zero_add, hver]; simp)]
  rw [if_neg (by simp only [Nat.zero_add, hml]; omega)]
  rw [if_neg (by simp only [Nat.zero_add, hnl]; omega)]
  rw [if_neg (by simp only [Nat.zero_add, hfs]; omega)]
  rw [if_neg (by simp only [Nat.zero_add, hml]; omega)]
  rw [if_neg (by simp only [Nat.zero_add, hml, hnl]; omega)]
  simp only [Nat.zero_add, hml, hfs, hnl, hslice]

/-- Every emitted packet is exactly `meta_len` bytes, and the stored header
keeps length `meta_len`. -/
theorem emit_packet_length (env : Tx.Env) (cfg : Tx.Cfg) (s : Tx.St)
    (h : s.meta.length = cfg.meta_len) :
    (Tx.emit_packet env cfg s).1.length = cfg.meta_len ∧
    (Tx.emit_packet env cfg s).2.meta.length = cfg.meta_len := by
  obtain ⟨smeta, sfh, sphase, sleft⟩ := s
  dsimp only at h
  cases sfh <;>
    · unfold Tx.emit_packet
      dsimp only
      split_ifs <;>
        all_goals simp_all [List.length_append, List.length_replicate, List.length_take,
          build_meta_length]

/-- Emitting `k` packets yields exactly `k * meta_len` bytes, preserving the header-length
invariant. -/
theorem emit_packets_length (env : Tx.Env) (cfg : Tx.Cfg) :
    ∀ (k : Nat) (s : Tx.St), s.meta.length = cfg.meta_len →
      (Tx.emit_packets env cfg k s).1.length = k * cfg.meta_len ∧
      (Tx.emit_packets env cfg k s).2.meta.length = cfg.meta_len := by
  intro k
  induction k with
  | zero => intro s h; simpa [Tx.emit_packets] using h
  | succ k ih =>
    intro s h
    have hp := emit_packet_length env cfg s h
    have hr := ih (Tx.emit_packet env cfg s).2 hp.2
    refine ⟨?_, by simpa [Tx.emit_packets] using hr.2⟩
    have : (Tx.emit_packets env cfg (k + 1) s).1 =
        (Tx.emit_packet env cfg s).1 ++ (Tx.emit_packets env cfg k (Tx.emit_packet env cfg s).2).1 :=
      rfl
    rw [this, List.length_append, hp.1, hr.1]
    ring

/-- Unfolding one step of `emit_packets`. -/
theorem emit_packets_succ (env : Tx.Env) (cfg : Tx.Cfg) (k : Nat) (s : Tx.St) :
    Tx.emit_packets env cfg (k + 1) s =
      ((Tx.emit_packet env cfg s).1 ++
          (Tx.emit_packets env cfg k (Tx.emit_packet env cfg s).2).1,
        (Tx.emit_packets env cfg k (Tx.emit_packet env cfg s).2).2) := rfl

set_option maxHeartbeats 1000000 in
/-- In `file` phase with an open handle holding exactly `file_bytes_left`
bytes, enough packet iterations emit the handle's bytes verbatim as the prefix
of the produced stream (`repeat` on, so the final short packet is padded but
not zeroed). -/
theorem emit_file_content (env : Tx.Env) (cfg : Tx.Cfg) (hrep : cfg.rep = true) :
    ∀ (j : Nat) (d : List Nat) (s : Tx.St), s.phase = Tx.Phase.file → s.fh = some d →
      s.file_bytes_left = d.length → 0 < d.length → d.length ≤ j * cfg.meta_len →
      s.meta.length = cfg.meta_len →
      (Tx.emit_packets env cfg j s).1.take d.length = d := by
  intro j
  induction j with
  | zero =>
    intro d s _ _ _ hpos hle _
    exact absurd hpos (by omega)
  | succ j ih =>
    intro d s hph hfh hleft hpos hle hmeta
    obtain ⟨smeta, sfh, sphase, sleft⟩ := s
    dsimp only at hph hfh hleft hmeta
    subst hph hfh hleft
    rw [emit_packets_succ]
    have hmul : (j + 1) * cfg.meta_len = j * cfg.meta_len + cfg.meta_len := by ring
    by_cases hcase : d.length ≤ cfg.meta_len
    · have hmin : min cfg.meta_len d.length = d.length := by omega
      have hstep : Tx.emit_packet env cfg ⟨smeta, some d, Tx.Phase.file, d.length⟩ =
          (d ++ List.replicate (cfg.meta_len - d.length) 0,
            ⟨Tx.build_meta cfg.name_b cfg.meta_len env.size, some (d.drop d.length),
              Tx.Phase.meta, 0⟩) := by
        unfold Tx.emit_packet
        simp [hmin, hpos, hrep]
      rw [hstep]
      dsimp only
      rw [List.append_assoc, List.take_append_eq_append_take]
      simp [List.take_length, Nat.sub_self]
    · push_neg at hcase
      have hmin : min cfg.meta_len d.length = cfg.meta_len := by omega
      have hlen2 : (d.take cfg.meta_len).length = cfg.meta_len := by
        simp [List.length_take]
        omega
      have hstep : Tx.emit_packet env cfg ⟨smeta, some d, Tx.Phase.file, d.length⟩ =
          (d.take cfg.meta_len,
            ⟨smeta, some (d.drop cfg.meta_len), Tx.Phase.file, d.length - cfg.meta_len⟩) := by
        have hnz : ¬(d.length - cfg.meta_len = 0) := by omega
        unfold Tx.emit_packet
        simp [hmin, hpos, hlen2, hnz]
      rw [hstep]
      dsimp only
      have hrest := ih (d.drop cfg.meta_len)
        ⟨smeta, some (d.drop cfg.meta_len), Tx.Phase.file, d.length - cfg.meta_len⟩
        rfl rfl (by simp only [List.length_drop]) (by simp only [List.length_drop]; omega)
        (by simp only [List.length_drop]; omega) hmeta
      rw [List.take_append_eq_append_take, hlen2]
      have ht : (d.take cfg.meta_len).take d.length = d.take cfg.meta_len := by
        rw [List.take_take]
        congr 1
        omega
      rw [ht]
      rw [List.length_drop] at hrest
      rw [hrest]
      exact List.take_append_drop _ _

/-- Facts recorded by a successful header validation. -/
theorem try_parse_some_facts (buf : List Nat) (idx : Nat) (m : Rx.ParsedMeta)
    (h : Rx.try_parse_meta_at buf idx = some m) :
    idx + 16 ≤ buf.length ∧ sliceOf buf idx (idx + 4) = magicBytes ∧
    16 ≤ m.meta_len ∧ m.meta_len ≤ 4096 ∧ 0 < m.file_size ∧
    idx + m.meta_len ≤ buf.length := by
  unfold Rx.try_parse_meta_at at h
  dsimp only at h
  split_ifs at h with h1 h2 h3 h4 h5 h6 h7 h8
  have hm := Option.some.inj h
  subst hm
  dsimp only
  push_neg at h2
  exact ⟨by omega, h2, by omega, by omega, by omega, by omega⟩

/-- The scan loop only returns candidates that fully validate. -/
theorem scanFindAux_sound (buf : List Nat) :
    ∀ (fuel start idx : Nat) (m : Rx.ParsedMeta),
      Rx.scanFindAux buf fuel start = some (idx, m) →
      Rx.try_parse_meta_at buf idx = some m := by
  intro fuel
  induction fuel with
  | zero =>
    intro start idx m h
    simp [Rx.scanFindAux] at h
  | succ fuel ih =>
    intro start idx m h
    unfold Rx.scanFindAux at h
    split_ifs at h with h1 h2
    · cases hp : Rx.try_parse_meta_at buf start with
      | some m2 =>
        rw [hp] at h
        dsimp only at h
        obtain ⟨rfl, rfl⟩ := Prod.mk.inj (Option.some.inj h)
        exact hp
      | none =>
        rw [hp] at h
        exact ih _ _ _ h
    · exact ih _ _ _ h

/-- As called by `general_work`. -/
theorem scanFind_sound (buf : List Nat) (start idx : Nat) (m : Rx.ParsedMeta)
    (h : Rx.scanFind buf start = some (idx, m)) :
    Rx.try_parse_meta_at buf idx = some m :=
  scanFindAux_sound buf _ start idx m h

/-- Candidates are tried in ascending offset order and the first fully
validating one wins: if everything before `k` fails validation and `k`
validates, the scan returns `k`. -/
theorem scanFindAux_first (buf : List Nat) (k : Nat) (m : Rx.ParsedMeta)
    (hmg : sliceOf buf k (k + 4) = magicBytes) (hk : k + 4 ≤ buf.length)
    (hall : ∀ i, i < k → Rx.try_parse_meta_at buf i = none)
    (hs : Rx.try_parse_meta_at buf k = some m) :
    ∀ (fuel start : Nat), start ≤ k → k - start < fuel →
      Rx.scanFindAux buf fuel start = some (k, m) := by
  intro fuel
  induction fuel with
  | zero =>
    intro start h1 h2
    omega
  | succ fuel ih =>
    intro start hsk hfuel
    unfold Rx.scanFindAux
    by_cases heq : start = k
    · subst heq
      rw [if_pos (by omega), if_pos hmg, hs]
    · have hlt : start < k := by omega
      rw [if_pos (by omega)]
      by_cases hm2 : sliceOf buf start (start + 4) = magicBytes
      · rw [if_pos hm2, hall start hlt]
        exact ih (start + 1) (by omega) (by omega)
      · rw [if_neg hm2]
        exact ih (start + 1) (by omega) (by omega)

/-- Running `scanFind` from the start of the buffer returns the first validating
candidate. -/
theorem scanFind_first (buf : List Nat) (k : Nat) (m : Rx.ParsedMeta)
    (hall : ∀ i, i < k → Rx.try_parse_meta_at buf i = none)
    (hs : Rx.try_parse_meta_at buf k = some m) :
    Rx.scanFind buf 0 = some (k, m) := by
  have hf := try_parse_some_facts buf k m hs
  have h1 := hf.1
  exact scanFindAux_first buf k m hf.2.1 (by omega) hall hs (buf.length + 1) 0 (by omega)
    (by omega)

/-- When no candidate validates, the scan block leaves the session unchanged
(buffer preserved). -/
theorem scan_step_none (cfg : Rx.Cfg) (s : Rx.St) (h : Rx.scanFind s.buf 0 = none) :
    Rx.scan_step cfg s = s := by
  unfold Rx.scan_step
  rw [h]

/-- When the scan finds a validating candidate (in a session that has not yet
created any output file), the bytes before it and its header are discarded,
the fields are recorded, the `.part` sink is opened and the state moves to
`RECV`. -/
theorem scan_step_some (cfg : Rx.Cfg) (s : Rx.St) (idx : Nat) (m : Rx.ParsedMeta)
    (h : Rx.scanFind s.buf 0 = some (idx, m)) (hfs : s.fs = []) :
    Rx.scan_step cfg s =
      { s with state := Rx.RState.RECV,
               buf := (s.buf.drop idx).drop m.meta_len,
               meta_len := some m.meta_len, file_size := some m.file_size,
               file_name := some m.file_name,
               fh := true,
               part_path := some (Rx.safe_name m.file_name ++ Rx.part_suffix),
               final_path := some (Rx.safe_name m.file_name),
               written := 0,
               fs := [(Rx.safe_name m.file_name ++ Rx.part_suffix, [])] } := by
  unfold Rx.scan_step
  rw [h]
  unfold Rx.open_out
  dsimp only
  rw [hfs]
  simp [Rx.fsLookup, Rx.fsSet, Rx.fsRemove]

/-- A freshly opened sink whose buffer already holds the whole payload is
drained and finished in the same call: the `.part` file is written, renamed to
the final path, and the session becomes `DONE`. -/
theorem recv_step_fresh_complete (s : Rx.St) (fp : List Nat) (fsz : Nat)
    (hw : s.written = 0) (h0 : 0 < fsz) (hfsz : s.file_size = some fsz)
    (hfs : s.fs = [(fp ++ Rx.part_suffix, [])])
    (hpp : s.part_path = some (fp ++ Rx.part_suffix)) (hfp : s.final_path = some fp)
    (hlen : fsz ≤ s.buf.length) :
    Rx.recv_step s =
      { s with buf := s.buf.drop fsz, written := fsz, fh := false,
               state := Rx.RState.DONE, done := true,
               fs := [(fp, s.buf.take fsz)] } := by
  have hne : ¬(fp ++ Rx.part_suffix = fp) := by
    intro he
    have h2 := congrArg List.length he
    simp [Rx.part_suffix] at h2
  obtain ⟨st, bf, ml, fs0, fn, fhh, pp0, fp0, w, dn, fsys⟩ := s
  dsimp only at hw hfsz hfs hpp hfp hlen ⊢
  subst hw hfsz hfs hpp hfp
  have hmin : min fsz bf.length = fsz := by omega
  unfold Rx.recv_step Rx.recv_write Rx.finish
  simp [Rx.fsAppend, Rx.fsSet, Rx.fsRemove, Rx.fsLookup, hmin, h0, hne, hlen,
    show 0 < bf.length from by omega]

/-- Delivering, to a fresh reassembler, one contiguous buffer in which the
first validating header candidate sits at offset `k` and is followed by its
complete payload (the whole buffer fitting under `max_buffer`) completes the
transfer in a single call: everything before the header and the `meta_len`
header bytes are discarded, exactly `file_size` payload bytes are written, and
the finished file appears at the final path. -/
theorem run_single_buffer (cfg : Rx.Cfg) (buf : List Nat) (k : Nat) (m : Rx.ParsedMeta)
    (h1 : ∀ i, i < k → Rx.try_parse_meta_at buf i = none)
    (h2 : Rx.try_parse_meta_at buf k = some m)
    (h3 : k + m.meta_len + m.file_size ≤ buf.length)
    (h4 : buf.length ≤ cfg.max_buffer) :
    Rx.general_work cfg buf Rx.init =
      { state := Rx.RState.DONE,
        buf := buf.drop (k + m.meta_len + m.file_size),
        meta_len := some m.meta_len, file_size := some m.file_size,
        file_name := some m.file_name, fh := false,
        part_path := some (Rx.safe_name m.file_name ++ Rx.part_suffix),
        final_path := some (Rx.safe_name m.file_name),
        written := m.file_size, done := true,
        fs := [(Rx.safe_name m.file_name,
          sliceOf buf (k + m.meta_len) (k + m.meta_len + m.file_size))] } := by
  have hfacts := try_parse_some_facts buf k m h2
  have hfpos : 0 < m.file_size := hfacts.2.2.2.2.1
  have hsf : Rx.scanFind buf 0 = some (k, m) := scanFind_first buf k m h1 h2
  have happ : Rx.append_trunc cfg buf Rx.init =
      ⟨Rx.RState.SCAN, buf, none, none, none, false, none, none, 0, false, []⟩ := by
    unfold Rx.append_trunc Rx.init
    dsimp only
    rw [if_neg (by simp; omega)]
    simp
  have hscan : Rx.scan_step cfg
      ⟨Rx.RState.SCAN, buf, none, none, none, false, none, none, 0, false, []⟩ =
      ⟨Rx.RState.RECV, (buf.drop k).drop m.meta_len, some m.meta_len, some m.file_size,
        some m.file_name, true, some (Rx.safe_name m.file_name ++ Rx.part_suffix),
        some (Rx.safe_name m.file_name), 0, false,
        [(Rx.safe_name m.file_name ++ Rx.part_suffix, [])]⟩ :=
    scan_step_some cfg _ k m hsf rfl
  have hlen2 : m.file_size ≤ ((buf.drop k).drop m.meta_len).length := by
    simp only [List.length_drop]
    omega
  have hrecv : Rx.recv_step ⟨Rx.RState.RECV, (buf.drop k).drop m.meta_len, some m.meta_len,
      some m.file_size, some m.file_name, true,
      some (Rx.safe_name m.file_name ++ Rx.part_suffix), some (Rx.safe_name m.file_name), 0, false,
      [(Rx.safe_name m.file_name ++ Rx.part_suffix, [])]⟩ =
      ⟨Rx.RState.DONE, ((buf.drop k).drop m.meta_len).drop m.file_size, some m.meta_len,
        some m.file_size, some m.file_name, false,
        some (Rx.safe_name m.file_name ++ Rx.part_suffix), some (Rx.safe_name m.file_name),
        m.file_size, true,
        [(Rx.safe_name m.file_name, ((buf.drop k).drop m.meta_len).take m.file_size)]⟩ :=
    recv_step_fresh_complete _ (Rx.safe_name m.file_name) m.file_size rfl hfpos rfl rfl rfl rfl
      hlen2
  have hdd2 : ((buf.drop k).drop m.meta_len).drop m.file_size =
      buf.drop (k + m.meta_len + m.file_size) := by
    rw [List.drop_drop, List.drop_drop]
    congr 1
    omega
  have hsl : ((buf.drop k).drop m.meta_len).take m.file_size =
      sliceOf buf (k + m.meta_len) (k + m.meta_len + m.file_size) := by
    rw [List.drop_drop]
    unfold sliceOf
    congr 1
    omega
  unfold Rx.general_work
  rw [if_neg (by simp [Rx.init])]
  dsimp only
  rw [happ, hscan]
  simp only [List.drop_drop] at hrecv hsl
  simp [hrecv, hsl]
/-- A buffer of zero bytes contains no magic candidate: the scan finds
nothing. -/
theorem scanFindAux_replicate_zero (n : Nat) :
    ∀ (fuel start : Nat), Rx.scanFindAux (List.replicate n 0) fuel start = none := by
  intro fuel
  induction fuel with
  | zero => intro start; rfl
  | succ fuel ih =>
    intro start
    unfold Rx.scanFindAux
    split_ifs with h1 h2
    · exfalso
      have hs : sliceOf (List.replicate n 0) start (start + 4) = List.replicate 4 0 := by
        unfold sliceOf
        rw [List.drop_replicate, List.take_replicate]
        congr 1
        simp only [List.length_replicate] at h1
        omega
      rw [hs] at h2
      exact absurd h2 (by decide)
    · exact ih (start + 1)
    · rfl

/-- A fresh session whose (possibly truncated) buffered input contains no
validating candidate stays in `SCAN` and touches nothing. -/
theorem general_work_fresh_scan_none (cfg : Rx.Cfg) (inp b2 : List Nat)
    (htr : Rx.append_trunc cfg inp Rx.init =
      ⟨Rx.RState.SCAN, b2, none, none, none, false, none, none, 0, false, []⟩)
    (hnone : Rx.scanFind b2 0 = none) :
    Rx.general_work cfg inp Rx.init =
      ⟨Rx.RState.SCAN, b2, none, none, none, false, none, none, 0, false, []⟩ := by
  have hss := scan_step_none cfg
    ⟨Rx.RState.SCAN, b2, none, none, none, false, none, none, 0, false, []⟩ hnone
  unfold Rx.general_work
  rw [if_neg (by simp [Rx.init])]
  dsimp only
  rw [htr]
  simp [hss]

/-- Claim C6 counterexample: with `k = 0` injected bytes (vacuously containing
no validating subsequence), a valid 16-byte header declaring a 5 MiB file
followed by its full (all-zero) payload, delivered as one buffer to a fresh
reassembler with the default 4 MiB `max_buffer`, does **not** lead to the file
being reconstructed: the pre-scan truncation keeps only the last 1 MiB of the
buffer, discarding the header, and the session stays in `SCAN` with no file
produced. -/
theorem c6_counterexample :
    (Rx.general_work Rx.defaultCfg
        (Tx.build_meta [] 16 5242880 ++ List.replicate 5242880 0) Rx.init).state =
      Rx.RState.SCAN ∧
    (Rx.general_work Rx.defaultCfg
        (Tx.build_meta [] 16 5242880 ++ List.replicate 5242880 0) Rx.init).fs = [] := by
  have h16 : (Tx.build_meta [] 16 5242880).length = 16 := build_meta_length _ _ _
  have hlen : (Tx.build_meta [] 16 5242880 ++ List.replicate 5242880 0).length = 5242896 := by
    rw [List.length_append, h16, List.length_replicate]
  have hd : (Tx.build_meta [] 16 5242880 ++ List.replicate 5242880 0).drop 4194320 =
      List.replicate 1048576 0 := by
    rw [List.drop_append_eq_append_drop]
    rw [List.drop_eq_nil_of_le (by rw [h16]; norm_num), h16, List.drop_replicate]
    norm_num
  have htr : Rx.append_trunc Rx.defaultCfg
      (Tx.build_meta [] 16 5242880 ++ List.replicate 5242880 0) Rx.init =
      ⟨Rx.RState.SCAN, List.replicate 1048576 0, none, none, none, false, none, none, 0,
        false, []⟩ := by
    unfold Rx.append_trunc Rx.init Rx.defaultCfg
    dsimp only
    rw [List.nil_append]
    rw [if_pos (by rw [hlen]; norm_num)]
    rw [hlen]
    norm_num
    exact hd
  have hnone : Rx.scanFind (List.replicate 1048576 0) 0 = none := by
    unfold Rx.scanFind
    exact scanFindAux_replicate_zero _ _ _
  have hgw := general_work_fresh_scan_none Rx.defaultCfg
    (Tx.build_meta [] 16 5242880 ++ List.replicate 5242880 0) (List.replicate 1048576 0)
    htr hnone
  rw [hgw]
  exact ⟨rfl, rfl⟩

/-- Claim C6 (amended): resynchronization holds for a delivered buffer that
fits under `max_buffer`: if no candidate offset before `k` passes full header
validation and the candidate at `k` validates with its complete payload
present, then — candidates being tried in ascending offset order with the
first fully validating one winning (`scanFind`) — the reassembler discards
all bytes before the header and the `meta_len` header bytes, reaches `DONE`,
and writes exactly the `file_size` bytes following the header to the output
path. -/
theorem c6_resync_amended (cfg : Rx.Cfg) (buf : List Nat) (k : Nat) (m : Rx.ParsedMeta)
    (h1 : ∀ i, i < k → Rx.try_parse_meta_at buf i = none)
    (h2 : Rx.try_parse_meta_at buf k = some m)
    (h3 : k + m.meta_len + m.file_size ≤ buf.length)
    (h4 : buf.length ≤ cfg.max_buffer) :
    Rx.scanFind buf 0 = some (k, m) ∧
    (Rx.general_work cfg buf Rx.init).state = Rx.RState.DONE ∧
    (Rx.general_work cfg buf Rx.init).done = true ∧
    (Rx.general_work cfg buf Rx.init).final_path = some (Rx.safe_name m.file_name) ∧
    Rx.fsLookup (Rx.general_work cfg buf Rx.init).fs (Rx.safe_name m.file_name) =
      some (sliceOf buf (k + m.meta_len) (k + m.meta_len + m.file_size)) := by
  have hr := run_single_buffer cfg buf k m h1 h2 h3 h4
  refine ⟨scanFind_first buf k m h1 h2, ?_, ?_, ?_, ?_⟩ <;>
    rw [hr] <;>
      simp [Rx.fsLookup]

/-- Witness for the amended C6 at a concrete input: 3 garbage bytes, then a
valid header (`meta_len = 16`, `file_size = 2`) and its 2 payload bytes. -/
theorem c6_resync_amended_witness :
    Rx.scanFind ([0, 0, 0] ++ [70, 73, 76, 69, 1, 16, 0, 0, 2, 0, 0, 0, 0, 0, 0, 0] ++ [8, 9])
        0 = some (3, ⟨16, 2, Rx.recv_bin⟩) ∧
    (Rx.general_work Rx.defaultCfg
        ([0, 0, 0] ++ [70, 73, 76, 69, 1, 16, 0, 0, 2, 0, 0, 0, 0, 0, 0, 0] ++ [8, 9])
        Rx.init).state = Rx.RState.DONE ∧
    (Rx.general_work Rx.defaultCfg
        ([0, 0, 0] ++ [70, 73, 76, 69, 1, 16, 0, 0, 2, 0, 0, 0, 0, 0, 0, 0] ++ [8, 9])
        Rx.init).done = true ∧
    (Rx.general_work Rx.defaultCfg
        ([0, 0, 0] ++ [70, 73, 76, 69, 1, 16, 0, 0, 2, 0, 0, 0, 0, 0, 0, 0] ++ [8, 9])
        Rx.init).final_path = some (Rx.safe_name (⟨16, 2, Rx.recv_bin⟩ : Rx.ParsedMeta).file_name) ∧
    Rx.fsLookup (Rx.general_work Rx.defaultCfg
        ([0, 0, 0] ++ [70, 73, 76, 69, 1, 16, 0, 0, 2, 0, 0, 0, 0, 0, 0, 0] ++ [8, 9])
        Rx.init).fs (Rx.safe_name (⟨16, 2, Rx.recv_bin⟩ : Rx.ParsedMeta).file_name) =
      some (sliceOf ([0, 0, 0] ++ [70, 73, 76, 69, 1, 16, 0, 0, 2, 0, 0, 0, 0, 0, 0, 0] ++ [8, 9])
        (3 + (⟨16, 2, Rx.recv_bin⟩ : Rx.ParsedMeta).meta_len)
        (3 + (⟨16, 2, Rx.recv_bin⟩ : Rx.ParsedMeta).meta_len +
          (⟨16, 2, Rx.recv_bin⟩ : Rx.ParsedMeta).file_size)) :=
  c6_resync_amended Rx.defaultCfg
    ([0, 0, 0] ++ [70, 73, 76, 69, 1, 16, 0, 0, 2, 0, 0, 0, 0, 0, 0, 0] ++ [8, 9])
    3 ⟨16, 2, Rx.recv_bin⟩ (by decide) (by decide) (by decide) (by decide)

/-- Claim C1 (amended): the round-trip holds for every file of size
`1 ≤ S ≤ 1 GiB` and every `packet_size` with
`16 + name_len ≤ packet_size ≤ 4096` (the receiver rejects `file_size = 0`,
headers whose name field overflows `meta_len`, and `meta_len > 4096`), with
`repeat` enabled, when the packetizer's emitted stream — one complete
header-plus-payload run, plus any number of further packets — is delivered as
one contiguous buffer that does not exceed the reassembler's configured
`max_buffer` (a larger buffer is destructively truncated before scanning):
the reassembler then reaches `DONE` and the file at the output path holds
exactly the original bytes. -/
theorem c1_roundtrip_amended (content name_b : List Nat) (pkt j t : Nat) (cfg : Rx.Cfg)
    (stream : List Nat)
    (hstream : stream = (Tx.general_work ⟨content.length, some content⟩ ⟨name_b, pkt, true⟩
      ((1 + (j + t)) * pkt) 0
      (Tx.init_state ⟨content.length, some content⟩ ⟨name_b, pkt, true⟩)).out)
    (hS1 : 1 ≤ content.length) (hS2 : content.length ≤ 1024 ^ 3)
    (hn : name_b.length ≤ 255) (hnp : 16 + name_b.length ≤ pkt) (hp : pkt ≤ 4096)
    (hj : content.length ≤ j * pkt)
    (hmb : (1 + (j + t)) * pkt ≤ cfg.max_buffer) :
    (Rx.general_work cfg stream Rx.init).state = Rx.RState.DONE ∧
    (Rx.general_work cfg stream Rx.init).done = true ∧
    (Rx.general_work cfg stream Rx.init).final_path =
      some (Rx.safe_name (Rx.decoded_name name_b)) ∧
    Rx.fsLookup (Rx.general_work cfg stream Rx.init).fs
      (Rx.safe_name (Rx.decoded_name name_b)) = some content := by
  have hpkt : 0 < pkt := by omega
  have hdiv : (1 + (j + t)) * pkt / pkt = 1 + (j + t) := Nat.mul_div_cancel _ hpkt
  have hfirst : Tx.emit_packet ⟨content.length, some content⟩ ⟨name_b, pkt, true⟩
      (Tx.init_state ⟨content.length, some content⟩ ⟨name_b, pkt, true⟩) =
      (Tx.build_meta name_b pkt content.length,
        ⟨Tx.build_meta name_b pkt content.length, some content, Tx.Phase.file,
          content.length⟩) := rfl
  have hmeta1 : (Tx.build_meta name_b pkt content.length).length = pkt :=
    build_meta_length _ _ _
  have hstream2 : stream = Tx.build_meta name_b pkt content.length ++
      (Tx.emit_packets ⟨content.length, some content⟩ ⟨name_b, pkt, true⟩ (j + t)
        ⟨Tx.build_meta name_b pkt content.length, some content, Tx.Phase.file,
          content.length⟩).1 := by
    rw [hstream]
    unfold Tx.general_work
    dsimp only
    rw [hdiv, if_neg (by omega)]
    dsimp only
    rw [show 1 + (j + t) = (j + t) + 1 from by omega]
    rw [emit_packets_succ, hfirst]
  have hjt : content.length ≤ (j + t) * pkt := by
    have := Nat.add_mul j t pkt
    omega
  have htake : (Tx.emit_packets ⟨content.length, some content⟩ ⟨name_b, pkt, true⟩ (j + t)
      ⟨Tx.build_meta name_b pkt content.length, some content, Tx.Phase.file,
        content.length⟩).1.take content.length = content :=
    emit_file_content ⟨content.length, some content⟩ ⟨name_b, pkt, true⟩ rfl (j + t) content
      ⟨Tx.build_meta name_b pkt content.length, some content, Tx.Phase.file, content.length⟩
      rfl rfl rfl (by omega) hjt hmeta1
  have hplen : (Tx.emit_packets ⟨content.length, some content⟩ ⟨name_b, pkt, true⟩ (j + t)
      ⟨Tx.build_meta name_b pkt content.length, some content, Tx.Phase.file,
        content.length⟩).1.length = (j + t) * pkt :=
    (emit_packets_length ⟨content.length, some content⟩ ⟨name_b, pkt, true⟩ (j + t)
      ⟨Tx.build_meta name_b pkt content.length, some content, Tx.Phase.file,
        content.length⟩ hmeta1).1
  have hslen : stream.length = (1 + (j + t)) * pkt := by
    rw [hstream2, List.length_append, hmeta1, hplen]
    ring
  have hparse : Rx.try_parse_meta_at stream 0 =
      some ⟨pkt, content.length, Rx.decoded_name name_b⟩ := by
    rw [hstream2]
    exact try_parse_build_meta name_b pkt content.length _ hn hnp hp (by omega) hS2
  have hrun := run_single_buffer cfg stream 0
    ⟨pkt, content.length, Rx.decoded_name name_b⟩
    (fun i hi => absurd hi (by omega)) hparse
    (by dsimp only; rw [hslen]; have := Nat.add_mul j t pkt; have := Nat.add_mul 1 (j + t) pkt; omega)
    (by omega)
  have hdropstream : stream.drop (0 + pkt) =
      (Tx.emit_packets ⟨content.length, some content⟩ ⟨name_b, pkt, true⟩ (j + t)
        ⟨Tx.build_meta name_b pkt content.length, some content, Tx.Phase.file,
          content.length⟩).1 := by
    rw [hstream2, Nat.zero_add]
    have hdl := List.drop_left (Tx.build_meta name_b pkt content.length)
      (Tx.emit_packets ⟨content.length, some content⟩ ⟨name_b, pkt, true⟩ (j + t)
        ⟨Tx.build_meta name_b pkt content.length, some content, Tx.Phase.file,
          content.length⟩).1
    rw [hmeta1] at hdl
    exact hdl
  have hslice : sliceOf stream (0 + pkt) (0 + pkt + content.length) = content := by
    unfold sliceOf
    rw [hdropstream]
    have harith : 0 + pkt + content.length - (0 + pkt) = content.length := by omega
    rw [harith, htake]
  rw [hrun]
  dsimp only
  rw [hslice]
  exact ⟨rfl, rfl, rfl, by simp [Rx.fsLookup]⟩

/-- Witness for the amended C1: a 1-byte file `[42]` named `"a"`, packet size
17, one payload packet, delivered to a default-configured reassembler. -/
theorem c1_roundtrip_amended_witness :
    (Rx.general_work Rx.defaultCfg
        (Tx.general_work ⟨1, some [42]⟩ ⟨[97], 17, true⟩ ((1 + (1 + 0)) * 17) 0
          (Tx.init_state ⟨1, some [42]⟩ ⟨[97], 17, true⟩)).out Rx.init).state =
      Rx.RState.DONE ∧
    (Rx.general_work Rx.defaultCfg
        (Tx.general_work ⟨1, some [42]⟩ ⟨[97], 17, true⟩ ((1 + (1 + 0)) * 17) 0
          (Tx.init_state ⟨1, some [42]⟩ ⟨[97], 17, true⟩)).out Rx.init).done = true ∧
    (Rx.general_work Rx.defaultCfg
        (Tx.general_work ⟨1, some [42]⟩ ⟨[97], 17, true⟩ ((1 + (1 + 0)) * 17) 0
          (Tx.init_state ⟨1, some [42]⟩ ⟨[97], 17, true⟩)).out Rx.init).final_path =
      some (Rx.safe_name (Rx.decoded_name [97])) ∧
    Rx.fsLookup (Rx.general_work Rx.defaultCfg
        (Tx.general_work ⟨1, some [42]⟩ ⟨[97], 17, true⟩ ((1 + (1 + 0)) * 17) 0
          (Tx.init_state ⟨1, some [42]⟩ ⟨[97], 17, true⟩)).out Rx.init).fs
      (Rx.safe_name (Rx.decoded_name [97])) = some [42] :=
  c1_roundtrip_amended [42] [97] 17 1 0 Rx.defaultCfg
    (Tx.general_work ⟨1, some [42]⟩ ⟨[97], 17, true⟩ ((1 + (1 + 0)) * 17) 0
      (Tx.init_state ⟨1, some [42]⟩ ⟨[97], 17, true⟩)).out
    rfl (by decide) (by decide) (by decide) (by decide) (by decide) (by decide) (by decide)

/-- Claim C3 (amended): header validation succeeds **iff** the seven listed
conditions hold *and additionally* the name field fits inside the header
(`16 + name_len ≤ meta_len`): a candidate whose name field would overflow
`meta_len` is rejected, not accepted leniently. -/
theorem c3_parse_validation_iff (buf : List Nat) (idx : Nat) :
    (Rx.try_parse_meta_at buf idx).isSome ↔
      (spec_parse_conditions buf idx ∧
        idx + 16 + byteAt buf (idx + 7) ≤ idx + readLE 2 buf (idx + 5)) := by
  unfold Rx.try_parse_meta_at spec_parse_conditions
  dsimp only
  split_ifs with h1 h2 h3 h4 h5 h6 h7 h8
  all_goals
    first
      | exact iff_of_true (by simp)
          ⟨⟨by omega, by assumption, by assumption, ⟨by omega, by omega⟩, by omega,
            ⟨by omega, by omega⟩, by omega⟩, by omega⟩
      | exact iff_of_false (by simp)
          (fun hc => by
            obtain ⟨⟨c1, c2, c3, ⟨c4a, c4b⟩, c5, ⟨c6a, c6b⟩, c7⟩, c8⟩ := hc
            simp_all <;> omega)

/-- Claim C5 (amended): a magic candidate that passes the field sanity checks
but has fewer than `meta_len` bytes available is treated as not (yet)
validating: the scan advances one byte past it within the same round instead
of stopping, while the buffer itself is preserved — no bytes are discarded
when no candidate validates, so the candidate is retried on a later round
with more data. -/
theorem c5_need_more_data_amended (buf : List Nat) (idx : Nat)
    (hsane : sanity_pass buf idx)
    (hneed : buf.length < idx + readLE 2 buf (idx + 5)) :
    Rx.try_parse_meta_at buf idx = none ∧
    Rx.scanFind buf idx = Rx.scanFind buf (idx + 1) ∧
    (∀ (cfg : Rx.Cfg) (s : Rx.St), Rx.scanFind s.buf 0 = none → Rx.scan_step cfg s = s) := by
  obtain ⟨c1, c2, c3, ⟨c4a, c4b⟩, c5, c6a, c6b⟩ := hsane
  have hparse : Rx.try_parse_meta_at buf idx = none := by
    unfold Rx.try_parse_meta_at
    rw [if_neg (by omega)]
    rw [if_neg (not_not_intro c2)]
    dsimp only
    rw [if_neg (not_not_intro c3)]
    rw [if_neg (by omega)]
    rw [if_neg (by omega)]
    rw [if_neg (by omega)]
    rw [if_pos hneed]
  refine ⟨hparse, ?_, fun cfg s h => scan_step_none cfg s h⟩
  unfold Rx.scanFind
  rw [show buf.length + 1 - idx = (buf.length - idx) + 1 from by omega,
    show buf.length + 1 - (idx + 1) = buf.length - idx from by omega]
  have hunf : Rx.scanFindAux buf ((buf.length - idx) + 1) idx =
      if idx + 4 ≤ buf.length then
        if sliceOf buf idx (idx + 4) = magicBytes then
          match Rx.try_parse_meta_at buf idx with
          | some m => some (idx, m)
          | none => Rx.scanFindAux buf (buf.length - idx) (idx + 1)
        else Rx.scanFindAux buf (buf.length - idx) (idx + 1)
      else none := rfl
  rw [hunf, if_pos (by omega), if_pos c2, hparse]

/-- Witness for the amended C5: a 16-byte buffer whose single candidate
declares `meta_len = 100` with only 16 bytes available. -/
theorem c5_need_more_data_amended_witness :
    Rx.try_parse_meta_at [70, 73, 76, 69, 1, 100, 0, 0, 5, 0, 0, 0, 0, 0, 0, 0] 0 = none ∧
    Rx.scanFind [70, 73, 76, 69, 1, 100, 0, 0, 5, 0, 0, 0, 0, 0, 0, 0] 0 =
      Rx.scanFind [70, 73, 76, 69, 1, 100, 0, 0, 5, 0, 0, 0, 0, 0, 0, 0] (0 + 1) ∧
    (∀ (cfg : Rx.Cfg) (s : Rx.St), Rx.scanFind s.buf 0 = none → Rx.scan_step cfg s = s) :=
  c5_need_more_data_amended [70, 73, 76, 69, 1, 100, 0, 0, 5, 0, 0, 0, 0, 0, 0, 0] 0
    (by decide) (by decide)

/-- Claim C7: for every request of `nout` output bytes the producer emits
exactly `meta_len * (nout / meta_len)` bytes (zero bytes and an unchanged
session, reported as success, when the request is below one packet), and
attaches to each emitted packet a boundary tag of value `meta_len` at offset
`nwritten + i * meta_len`; when the stream position is packet-aligned (as it
always is, every call producing a multiple of `meta_len`), every tag offset
is an exact multiple of `meta_len`. -/
theorem c7_producer_conduit (env : Tx.Env) (cfg : Tx.Cfg) (nout nwritten : Nat) (s : Tx.St)
    (hm : s.meta.length = cfg.meta_len) :
    (Tx.general_work env cfg nout nwritten s).out.length =
      cfg.meta_len * (nout / cfg.meta_len) ∧
    (nout < cfg.meta_len → Tx.general_work env cfg nout nwritten s = ⟨[], [], s⟩) ∧
    (Tx.general_work env cfg nout nwritten s).tags =
      (List.range (nout / cfg.meta_len)).map
        (fun i => (nwritten + i * cfg.meta_len, cfg.meta_len)) ∧
    (cfg.meta_len ∣ nwritten →
      ∀ p ∈ (Tx.general_work env cfg nout nwritten s).tags,
        p.2 = cfg.meta_len ∧ cfg.meta_len ∣ p.1) := by
  unfold Tx.general_work
  dsimp only
  by_cases h0 : nout / cfg.meta_len = 0
  · rw [if_pos h0, h0]
    refine ⟨by simp, fun _ => rfl, by simp, ?_⟩
    intro _ p hp2
    simp at hp2
  · rw [if_neg h0]
    dsimp only
    refine ⟨?_, ?_, rfl, ?_⟩
    · rw [(emit_packets_length env cfg _ s hm).1]
      ring
    · intro hlt
      exact absurd (Nat.div_eq_of_lt hlt) h0
    · intro hdvd p hp2
      simp only [List.mem_map, List.mem_range] at hp2
      obtain ⟨i, _, rfl⟩ := hp2
      exact ⟨rfl, Dvd.dvd.add hdvd (dvd_mul_left _ _)⟩

/-- Witness for C7: a 2-byte file, `meta_len = 16`, a request for 35 bytes at
stream position 16. -/
theorem c7_producer_conduit_witness :
    (Tx.general_work ⟨2, some [7, 8]⟩ ⟨[], 16, true⟩ 35 16
        (Tx.init_state ⟨2, some [7, 8]⟩ ⟨[], 16, true⟩)).out.length = 16 * (35 / 16) ∧
    (35 < 16 → Tx.general_work ⟨2, some [7, 8]⟩ ⟨[], 16, true⟩ 35 16
        (Tx.init_state ⟨2, some [7, 8]⟩ ⟨[], 16, true⟩) =
      ⟨[], [], Tx.init_state ⟨2, some [7, 8]⟩ ⟨[], 16, true⟩⟩) ∧
    (Tx.general_work ⟨2, some [7, 8]⟩ ⟨[], 16, true⟩ 35 16
        (Tx.init_state ⟨2, some [7, 8]⟩ ⟨[], 16, true⟩)).tags =
      (List.range (35 / 16)).map (fun i => (16 + i * 16, 16)) ∧
    (16 ∣ 16 →
      ∀ p ∈ (Tx.general_work ⟨2, some [7, 8]⟩ ⟨[], 16, true⟩ 35 16
          (Tx.init_state ⟨2, some [7, 8]⟩ ⟨[], 16, true⟩)).tags,
        p.2 = 16 ∧ 16 ∣ p.1) :=
  c7_producer_conduit ⟨2, some [7, 8]⟩ ⟨[], 16, true⟩ 35 16
    (Tx.init_state ⟨2, some [7, 8]⟩ ⟨[], 16, true⟩) (by decide)

/-- The scan block never grows the buffer. -/
theorem scan_step_buf_le (cfg : Rx.Cfg) (s : Rx.St) :
    (Rx.scan_step cfg s).buf.length ≤ s.buf.length := by
  unfold Rx.scan_step
  cases h : Rx.scanFind s.buf 0 with
  | none => exact Nat.le_refl _
  | some im =>
    obtain ⟨idx, m⟩ := im
    dsimp only
    unfold Rx.open_out
    dsimp only
    simp only [List.length_drop]
    omega

/-- The receive block never grows the buffer. -/
theorem recv_step_buf_le (s : Rx.St) : (Rx.recv_step s).buf.length ≤ s.buf.length := by
  unfold Rx.recv_step Rx.recv_write Rx.finish
  dsimp only
  split_ifs <;>
    · try simp only [List.length_drop]
      omega

/-- One consumer call keeps the buffer within `max_buffer` whenever
`max_buffer` is at least the 1 MiB retention size. -/
theorem general_work_buf_bound (cfg : Rx.Cfg) (hcap : 1024 * 1024 ≤ cfg.max_buffer)
    (inp : List Nat) (s : Rx.St) (hpre : s.buf.length ≤ cfg.max_buffer) :
    (Rx.general_work cfg inp s).buf.length ≤ cfg.max_buffer := by
  unfold Rx.general_work
  split_ifs with hdone
  · exact hpre
  · have htr : (Rx.append_trunc cfg inp s).buf.length ≤ cfg.max_buffer := by
      unfold Rx.append_trunc
      dsimp only
      split_ifs with ht
      · simp only [List.length_drop]
        omega
      · simp only [not_lt] at ht
        exact ht
    dsimp only
    split_ifs
    · exact le_trans (recv_step_buf_le _) (le_trans (scan_step_buf_le _ _) htr)
    · exact le_trans (scan_step_buf_le _ _) htr
    · exact le_trans (recv_step_buf_le _) htr
    · exact htr

/-- Claim C8 (amended): for every configured `max_buffer` of at least 1 MiB
(the hardcoded truncation retention size), the scan buffer never exceeds
`max_buffer` after any sequence of input deliveries; for smaller configured
caps the truncation keeps the last 1 MiB regardless and the cap can be
exceeded. -/
theorem c8_bounded_memory_amended (cfg : Rx.Cfg) (hcap : 1024 * 1024 ≤ cfg.max_buffer)
    (ds : List (List Nat)) :
    (Rx.run cfg ds).buf.length ≤ cfg.max_buffer := by
  suffices h : ∀ (ds : List (List Nat)) (s : Rx.St), s.buf.length ≤ cfg.max_buffer →
      (ds.foldl (fun s d => Rx.general_work cfg d s) s).buf.length ≤ cfg.max_buffer by
    exact h ds Rx.init (by simp [Rx.init])
  intro ds
  induction ds with
  | nil => exact fun s hs => hs
  | cons d ds ih =>
    intro s hs
    exact ih _ (general_work_buf_bound cfg hcap d s hs)

/-- Witness for the amended C8: `max_buffer = 1 MiB`, one 3-byte delivery. -/
theorem c8_bounded_memory_amended_witness :
    (Rx.run ⟨true, 1048576⟩ [[1, 2, 3]]).buf.length ≤ 1048576 :=
  c8_bounded_memory_amended ⟨true, 1048576⟩ (by decide) [[1, 2, 3]]

/-- When the open handle is absent, one packet iteration of the failed-open
session emits the same bytes as the empty-file session, the handle stays
absent, and the successor states again differ only in the handle
(`none` versus an open empty file). -/
theorem emit_packet_open_failure (cfg : Tx.Cfg) (s : Tx.St) (hfh : s.fh = none) :
    (Tx.emit_packet ⟨0, none⟩ cfg s).1 =
      (Tx.emit_packet ⟨0, some []⟩ cfg { s with fh := some [] }).1 ∧
    (Tx.emit_packet ⟨0, none⟩ cfg s).2.fh = none ∧
    (Tx.emit_packet ⟨0, some []⟩ cfg { s with fh := some [] }).2 =
      { (Tx.emit_packet ⟨0, none⟩ cfg s).2 with fh := some [] } := by
  obtain ⟨smeta, sfh, sphase, sleft⟩ := s
  dsimp only at hfh
  subst hfh
  by_cases hph : sphase = Tx.Phase.meta <;>
    by_cases hl : 0 < sleft <;>
      simp [Tx.emit_packet, hph, hl]

/-- The failed-open session and the empty-file session emit identical bytes
from any pair of states differing only in the handle. -/
theorem emit_packets_open_failure (cfg : Tx.Cfg) :
    ∀ (k : Nat) (s : Tx.St), s.fh = none →
      (Tx.emit_packets ⟨0, none⟩ cfg k s).1 =
        (Tx.emit_packets ⟨0, some []⟩ cfg k { s with fh := some [] }).1 := by
  intro k
  induction k with
  | zero => intro s _; rfl
  | succ k ih =>
    intro s h
    have hp := emit_packet_open_failure cfg s h
    rw [emit_packets_succ, emit_packets_succ, hp.1, hp.2.2]
    rw [ih (Tx.emit_packet ⟨0, none⟩ cfg s).2 hp.2.1]

/-- Claim C9 (amended): when the source file is inaccessible — the size query
fails (reported as 0) and the open fails — the session continues with no
exception (the model is total) and emits exactly the same byte stream as a
session on a zero-length file: zero-filled FILE packets, with the phase cycle
of an empty file. -/
theorem c9_open_failure_amended (name_b : List Nat) (pkt : Nat) (rep : Bool) (k : Nat) :
    (Tx.emit_packets ⟨0, none⟩ ⟨name_b, pkt, rep⟩ k
      (Tx.init_state ⟨0, none⟩ ⟨name_b, pkt, rep⟩)).1 =
    (Tx.emit_packets ⟨0, some []⟩ ⟨name_b, pkt, rep⟩ k
      (Tx.init_state ⟨0, some []⟩ ⟨name_b, pkt, rep⟩)).1 := by
  have h := emit_packets_open_failure ⟨name_b, pkt, rep⟩ k
    (Tx.init_state ⟨0, none⟩ ⟨name_b, pkt, rep⟩) rfl
  rw [h]
  rfl

/-- The fresh session satisfies the invariant. -/
theorem inv_init : RxInv Rx.init := by
  unfold RxInv Rx.init
  exact ⟨fun _ => ⟨rfl, rfl, rfl, rfl, rfl, rfl⟩, fun h => by simp at h, fun h => by simp at h⟩

/-- The invariant does not mention the receive buffer. -/
theorem RxInv_buf (s : Rx.St) (b : List Nat) (h : RxInv s) : RxInv { s with buf := b } := by
  obtain ⟨st, bf, ml, fs0, fn, fhh, pp0, fp0, w, dn, fsys⟩ := s
  exact h

/-- The receive block preserves the invariant from any state with the `RECV`
shape: either it only drains (staying short of `file_size`), or it completes
the file and renames it. -/
theorem recv_step_inv (s : Rx.St) (fp c : List Nat) (fsz : Nat)
    (hst : s.state = Rx.RState.RECV) (hdone : s.done = false) (hfh : s.fh = true)
    (hfp : s.final_path = some fp) (hpp : s.part_path = some (fp ++ Rx.part_suffix))
    (hfsz : s.file_size = some fsz) (hw : s.written < fsz)
    (hfs : s.fs = [(fp ++ Rx.part_suffix, c)]) (hc : c.length = s.written) :
    RxInv (Rx.recv_step s) := by
  have hne : ¬(fp ++ Rx.part_suffix = fp) := by
    intro he
    have h2 := congrArg List.length he
    simp [Rx.part_suffix] at h2
  obtain ⟨st, bf, ml, fs0, fn, fhh, pp0, fp0, w, dn, fsys⟩ := s
  dsimp only at hst hdone hfh hfp hpp hfsz hw hfs hc ⊢
  subst hst hdone hfh hfp hpp hfsz hfs
  by_cases hbf : 0 < bf.length
  · by_cases hfin : fsz - w ≤ bf.length
    · have hmin : min (fsz - w) bf.length = fsz - w := by omega
      have hstep : Rx.recv_step ⟨Rx.RState.RECV, bf, ml, some fsz, fn, true,
          some (fp ++ Rx.part_suffix), some fp, w, false, [(fp ++ Rx.part_suffix, c)]⟩ =
          ⟨Rx.RState.DONE, bf.drop (fsz - w), ml, some fsz, fn, false,
            some (fp ++ Rx.part_suffix), some fp, w + (fsz - w), true,
            [(fp, c ++ bf.take (fsz - w))]⟩ := by
        unfold Rx.recv_step Rx.recv_write Rx.finish
        simp [Rx.fsAppend, Rx.fsSet, Rx.fsRemove, Rx.fsLookup, hmin, hbf, hne,
          show 0 < fsz - w from by omega, show fsz ≤ w + (fsz - w) from by omega]
      rw [hstep]
      refine ⟨fun h => by simp at h, fun h => by simp at h, fun _ =>
        ⟨rfl, fp, fsz, c ++ bf.take (fsz - w), rfl, rfl, by dsimp only; omega, rfl, ?_⟩⟩
      dsimp only
      simp only [List.length_append, List.length_take]
      omega
    · have hmin : min (fsz - w) bf.length = bf.length := by omega
      have hstep : Rx.recv_step ⟨Rx.RState.RECV, bf, ml, some fsz, fn, true,
          some (fp ++ Rx.part_suffix), some fp, w, false, [(fp ++ Rx.part_suffix, c)]⟩ =
          ⟨Rx.RState.RECV, bf.drop bf.length, ml, some fsz, fn, true,
            some (fp ++ Rx.part_suffix), some fp, w + bf.length, false,
            [(fp ++ Rx.part_suffix, c ++ bf.take bf.length)]⟩ := by
        unfold Rx.recv_step Rx.recv_write
        simp [Rx.fsAppend, Rx.fsSet, Rx.fsRemove, Rx.fsLookup, hmin, hbf,
          show 0 < fsz - w from by omega, show ¬(fsz ≤ w + bf.length) from by omega]
      rw [hstep]
      refine ⟨fun h => by simp at h, fun _ =>
        ⟨rfl, rfl, fp, fsz, c ++ bf.take bf.length, rfl, rfl, rfl, by dsimp only; omega, rfl,
          ?_⟩, fun h => by simp at h⟩
      dsimp only
      simp only [List.length_append, List.length_take]
      omega
  · have hstep : Rx.recv_step ⟨Rx.RState.RECV, bf, ml, some fsz, fn, true,
        some (fp ++ Rx.part_suffix), some fp, w, false, [(fp ++ Rx.part_suffix, c)]⟩ =
        ⟨Rx.RState.RECV, bf, ml, some fsz, fn, true,
          some (fp ++ Rx.part_suffix), some fp, w, false, [(fp ++ Rx.part_suffix, c)]⟩ := by
      unfold Rx.recv_step Rx.recv_write
      simp [hbf, show ¬(fsz ≤ w) from by omega]
    rw [hstep]
    exact ⟨fun h => by simp at h, fun _ =>
      ⟨rfl, rfl, fp, fsz, c, rfl, rfl, rfl, hw, rfl, hc⟩, fun h => by simp at h⟩

/-- The scan block preserves the invariant from a `SCAN` state. -/
theorem RxInv_scan (cfg : Rx.Cfg) (s : Rx.St) (h : RxInv s) (hst : s.state = Rx.RState.SCAN) :
    RxInv (Rx.scan_step cfg s) := by
  obtain ⟨hdn, hfh, hfp, hpp, hfs, hw⟩ := h.1 hst
  cases hsf : Rx.scanFind s.buf 0 with
  | none =>
    rw [scan_step_none cfg s hsf]
    exact h
  | some im =>
    obtain ⟨idx, m⟩ := im
    have hm := try_parse_some_facts s.buf idx m (scanFind_sound s.buf 0 idx m hsf)
    rw [scan_step_some cfg s idx m hsf hfs]
    refine ⟨fun hh => by simp at hh, fun _ => ?_, fun hh => by simp at hh⟩
    refine ⟨hdn, rfl, Rx.safe_name m.file_name, m.file_size, [], rfl, rfl, rfl, ?_, rfl, rfl⟩
    dsimp only
    exact hm.2.2.2.2.1

/-- The receive dispatch preserves the invariant. -/
theorem RxInv_recv_if (s : Rx.St) (h : RxInv s) :
    RxInv (if s.state = Rx.RState.RECV ∧ s.fh = true then Rx.recv_step s else s) := by
  split_ifs with hc
  · obtain ⟨hdn, hfh, fp, fsz, c, hfp, hpp, hfsz, hw, hfs, hcl⟩ := h.2.1 hc.1
    exact recv_step_inv s fp c fsz hc.1 hdn hfh hfp hpp hfsz hw hfs hcl
  · exact h

/-- One consumer call preserves the session invariant. -/
theorem general_work_inv (cfg : Rx.Cfg) (inp : List Nat) (s : Rx.St) (hinv : RxInv s) :
    RxInv (Rx.general_work cfg inp s) := by
  by_cases hdone : s.done = true
  · unfold Rx.general_work
    rw [if_pos hdone]
    exact hinv
  · unfold Rx.general_work
    rw [if_neg hdone]
    dsimp only
    have hs1 : ∃ b, Rx.append_trunc cfg inp s = { s with buf := b } := by
      unfold Rx.append_trunc
      dsimp only
      split_ifs <;> exact ⟨_, rfl⟩
    obtain ⟨b, hb⟩ := hs1
    rw [hb]
    have h1 : RxInv { s with buf := b } := RxInv_buf s b hinv
    have h2 : RxInv (if ({ s with buf := b } : Rx.St).state = Rx.RState.SCAN
        then Rx.scan_step cfg { s with buf := b } else { s with buf := b }) := by
      split_ifs with hsc
      · exact RxInv_scan cfg _ h1 hsc
      · exact h1
    exact RxInv_recv_if _ h2

/-- Claim C4: atomic completion.  In every state reachable by a session (any
configuration, any sequence of deliveries from a fresh block), a file is
visible at the final output path only once the transfer completed: its length
then equals the declared `file_size`, `written` equals `file_size`, and the
session is `DONE` — the `.part` → final rename happens only at exactly
`written = file_size`, so a stream dropped mid-payload leaves nothing at the
final path. -/
theorem c4_atomic_completion (cfg : Rx.Cfg) (ds : List (List Nat)) (fp c : List Nat)
    (hfp : (Rx.run cfg ds).final_path = some fp)
    (hc : Rx.fsLookup (Rx.run cfg ds).fs fp = some c) :
    (Rx.run cfg ds).state = Rx.RState.DONE ∧
    (Rx.run cfg ds).written = (Rx.run cfg ds).file_size.getD 0 ∧
    c.length = (Rx.run cfg ds).file_size.getD 0 := by
  have hinv : RxInv (Rx.run cfg ds) := by
    unfold Rx.run
    have hfold : ∀ (l : List (List Nat)) (s : Rx.St), RxInv s →
        RxInv (l.foldl (fun s d => Rx.general_work cfg d s) s) := by
      intro l
      induction l with
      | nil => exact fun s h => h
      | cons d l ih => exact fun s h => ih _ (general_work_inv cfg d s h)
    exact hfold ds Rx.init inv_init
  obtain ⟨hS, hR, hD⟩ := hinv
  cases hst : (Rx.run cfg ds).state with
  | SCAN =>
    rw [(hS hst).2.2.1] at hfp
    exact absurd hfp (by simp)
  | RECV =>
    obtain ⟨_, _, fp', fsz, c', hfp', hpp', hfsz', hw', hfs', hc'⟩ := hR hst
    rw [hfp'] at hfp
    have hfpe : fp' = fp := Option.some.inj hfp
    rw [hfs', hfpe] at hc
    have hne : ¬(fp ++ Rx.part_suffix = fp) := by
      intro he
      have h2 := congrArg List.length he
      simp [Rx.part_suffix] at h2
    simp [Rx.fsLookup, hne] at hc
  | DONE =>
    obtain ⟨_, fp', fsz, c', hfp', hfsz', hw', hfs', hc'⟩ := hD hst
    rw [hfp'] at hfp
    have hfpe : fp' = fp := Option.some.inj hfp
    rw [hfs', hfpe] at hc
    simp [Rx.fsLookup] at hc
    refine ⟨rfl, ?_, ?_⟩
    · rw [hfsz', hw']
      simp
    · rw [hfsz', ← hc, hc']
      simp

/-- Witness for C4 at a completed concrete run: one delivery holding a valid
header (`file_size = 2`) and its payload. -/
theorem c4_atomic_completion_witness :
    (Rx.run Rx.defaultCfg [[70, 73, 76, 69, 1, 16, 0, 0, 2, 0, 0, 0, 0, 0, 0, 0, 5, 6]]).state =
      Rx.RState.DONE ∧
    (Rx.run Rx.defaultCfg [[70, 73, 76, 69, 1, 16, 0, 0, 2, 0, 0, 0, 0, 0, 0, 0, 5, 6]]).written =
      (Rx.run Rx.defaultCfg
        [[70, 73, 76, 69, 1, 16, 0, 0, 2, 0, 0, 0, 0, 0, 0, 0, 5, 6]]).file_size.getD 0 ∧
    ([5, 6] : List Nat).length =
      (Rx.run Rx.defaultCfg
        [[70, 73, 76, 69, 1, 16, 0, 0, 2, 0, 0, 0, 0, 0, 0, 0, 5, 6]]).file_size.getD 0 :=
  c4_atomic_completion Rx.defaultCfg
    [[70, 73, 76, 69, 1, 16, 0, 0, 2, 0, 0, 0, 0, 0, 0, 0, 5, 6]] Rx.recv_bin [5, 6]
    (by decide) (by decide)
